import Mathlib

/-!
Shallow embedding of `rocksdb_pybinding/src/rocksdb_binding.cpp` (the KV-cache
variant of `RocksDBWrapper`): the metadata index (RocksDB key→value map), the
single-key operations `put` / `get` / `probe` / `delete_key` / `multiget`, and
the batching coordinators `batch_put` / `batch_get` together with the
safetensor blob collaborator they delegate to.

Keys and stored values (`std::string` byte strings) are modelled as `String`.
Index lookups are modelled by an abstract `Key → Status` function mirroring the
per-key `rocksdb::Status` returned by `db->Get` / `db->MultiGet`; a concrete
assoc-list `Index` instantiates it for state-based properties.
-/

namespace RocksBind

abbrev Key := String

/-- Payloads (the `kv_caches` python objects) are opaque byte-like data. -/
abbrev Payload := String

/-- Per-key outcome of a RocksDB point or multi lookup: `ok` with the stored
value, `notFound` (`Status::IsNotFound`), or any other error status. -/
inductive Status where
  | ok : String → Status
  | notFound : Status
  | err : String → Status
deriving DecidableEq, Repr

/-! ### Decimal rendering (`std::to_string`) and parsing (`std::stoi`) -/

/-- The decimal digit characters produced by `std::to_string`. -/
def digitChar : Nat → Char
  | 0 => '0' | 1 => '1' | 2 => '2' | 3 => '3' | 4 => '4'
  | 5 => '5' | 6 => '6' | 7 => '7' | 8 => '8' | _ => '9'

/-- Fuel-driven decimal rendering; with fuel `> n` it renders all digits. -/
def toDecAux (fuel n : Nat) (acc : List Char) : List Char :=
  match fuel with
  | 0 => acc
  | fuel + 1 =>
    if n < 10 then digitChar n :: acc
    else toDecAux fuel (n / 10) (digitChar (n % 10) :: acc)

/-- Decimal digit list of `n`, most significant first (`std::to_string`). -/
def toDecimal (n : Nat) : List Char := toDecAux (n + 1) n []

/-- `std::to_string` on a nonnegative integer. -/
def natStr (n : Nat) : String := String.mk (toDecimal n)

/-- Value of a digit character. -/
def digitVal (c : Char) : Nat := c.toNat - 48

/-- Left-to-right accumulation of a digit list into a number. -/
def digitsToNat (l : List Char) : Nat := l.foldl (fun acc c => acc * 10 + digitVal c) 0

/-- Longest digit prefix of a character list, plus the rest. -/
def takeDigits : List Char → List Char × List Char
  | [] => ([], [])
  | c :: cs =>
    if c.isDigit then
      let p := takeDigits cs
      (c :: p.1, p.2)
    else ([], c :: cs)

/-- Parse the digit prefix; `none` when there is no digit (`std::stoi` throws). -/
def digitsPrefix (l : List Char) : Option Nat :=
  match takeDigits l with
  | ([], _) => none
  | (ds, _) => some (digitsToNat ds)

/-- Model of `std::stoi`: skip leading whitespace, optional sign, then a
nonempty digit run; trailing characters are ignored; no digits means the
`std::invalid_argument` exception, modelled as `none`. -/
def stoi (s : String) : Option Int :=
  match s.data.dropWhile (fun c => c.isWhitespace) with
  | [] => none
  | c :: rest =>
    if c = '-' then (digitsPrefix rest).map (fun n => -(n : Int))
    else if c = '+' then (digitsPrefix rest).map (fun n => (n : Int))
    else (digitsPrefix (c :: rest)).map (fun n => (n : Int))

/-! ### The `'|'` descriptor delimiter (`value_str.find('|')` + `substr`) -/

/-- Split a character list at the first `'|'`: the part before and after. -/
def findPipe : List Char → Option (List Char × List Char)
  | [] => none
  | c :: cs =>
    if c = '|' then some ([], cs)
    else
      match findPipe cs with
      | some p => some (c :: p.1, p.2)
      | none => none

/-- `find('|')` + `substr` on a stored index value: `none` when the value has
no pipe (`std::string::npos`), otherwise the filename part and the slot part. -/
def splitPipe (s : String) : Option (String × String) :=
  (findPipe s.data).map (fun p => (String.mk p.1, String.mk p.2))

/-! ### The metadata index (the RocksDB store itself, as seen by this layer) -/

/-- The index state: an association list, most recent write first. -/
abbrev Index := List (Key × String)

/-- Point lookup: first (most recent) entry wins. -/
def ixGet (idx : Index) (k : Key) : Option String :=
  match idx with
  | [] => none
  | (k2, v) :: rest => if k = k2 then some v else ixGet rest k

/-- `db->Put` / one `WriteBatch.Put`: the new entry shadows older ones. -/
def ixPut (idx : Index) (k : Key) (v : String) : Index := (k, v) :: idx

/-- `db->Delete`: removes every entry for the key. -/
def ixDelete (idx : Index) (k : Key) : Index :=
  idx.filter (fun p => decide (p.1 ≠ k))

/-- The per-key lookup status a healthy index gives: the stored value or
`notFound`. -/
def ixLookup (idx : Index) : Key → Status :=
  fun k =>
    match ixGet idx k with
    | some v => Status.ok v
    | none => Status.notFound

/-! ### Single-key operations of `RocksDBWrapper` -/

/-- `RocksDBWrapper::put`: store the raw value; the write status is reported. -/
def put (idx : Index) (k : Key) (v : String) : Bool × Index :=
  (true, ixPut idx k v)

/-- `RocksDBWrapper::get`: `py::bytes(value)` when the status is ok, and
`py::none()` for every other status — not-found and real errors alike. -/
def get (L : Key → Status) (k : Key) : Option String :=
  match L k with
  | Status.ok v => some v
  | _ => none

/-- `RocksDBWrapper::probe`: `false` on `IsNotFound()`, `true` on ok, and a
thrown `std::runtime_error` on any other status. -/
def probe (L : Key → Status) (k : Key) : Except String Bool :=
  match L k with
  | Status.notFound => Except.ok false
  | Status.ok _ => Except.ok true
  | Status.err e => Except.error ("Error probing key: " ++ e)

/-- `RocksDBWrapper::delete_key`. -/
def delete_key (idx : Index) (k : Key) : Bool × Index :=
  (true, ixDelete idx k)

/-! ### `RocksDBWrapper::multiget` -/

/-- `result[keys[i]] = ...` on a `py::dict`: overwrite in place or append. -/
def dictInsert (d : List (Key × Option String)) (k : Key) (v : Option String) :
    List (Key × Option String) :=
  if d.any (fun p => p.1 = k) then
    d.map (fun p => if p.1 = k then (k, v) else p)
  else d ++ [(k, v)]

/-- The result loop of `multiget`: ok with an empty value throws
`"Empty value for key: <k>"` (aborting the whole call); ok otherwise stores
the bytes; any other status stores `none`. -/
def multigetGo (L : Key → Status) : List Key → List (Key × Option String) →
    Except String (List (Key × Option String))
  | [], acc => Except.ok acc
  | k :: rest, acc =>
    match L k with
    | Status.ok v =>
      if v = "" then Except.error ("Empty value for key: " ++ k)
      else multigetGo L rest (dictInsert acc k (some v))
    | _ => multigetGo L rest (dictInsert acc k none)

/-- `RocksDBWrapper::multiget`: per-key dict, or the thrown error. -/
def multiget (L : Key → Status) (keys : List Key) :
    Except String (List (Key × Option String)) :=
  multigetGo L keys []

/-! ### The blob collaborator (`safetensor_helper`), modelled from the spec -/

/-- The on-disk blob state: each written file holds its payload list, the
payload at list position `s` sitting in slot `s`. -/
abbrev BlobStore := String → Option (List Payload)

/-- Modelled from the spec: `SafetensorHelper.save_kv_caches` (the python blob
writer, not under `src/`) serializes the payload batch into the named file and
reports, per input index, the slot it was stored at — the simplest and expected
mapping, slot = index. Returns the updated store and the reported slots. -/
def save_kv_caches (bs : BlobStore) (file : String) (ps : List Payload) :
    BlobStore × List Nat :=
  (fun g => if g = file then some ps else bs g, List.range ps.length)

/-- Read the requested slots out of one file's payload list; a slot that does
not exist in the file is a collaborator failure (an exception). -/
def loadSlots (ps : List Payload) : List Int → Except String (List Payload)
  | [] => Except.ok []
  | o :: rest =>
    if o < 0 then Except.error "invalid slot"
    else
      match ps[o.toNat]? with
      | none => Except.error "missing slot"
      | some p =>
        match loadSlots ps rest with
        | Except.error e => Except.error e
        | Except.ok tail => Except.ok (p :: tail)

/-- Modelled from the spec: `SafetensorHelper.load_kv_caches` (the python blob
reader, not under `src/`) loads the requested slots from the named file, in
request order; an unknown file or slot raises, modelled as `Except.error`. -/
def load_kv_caches (bs : BlobStore) (file : String) (slots : List Int) :
    Except String (List Payload) :=
  match bs file with
  | none => Except.error "file not found"
  | some ps => loadSlots ps slots

/-! ### `RocksDBWrapper::batch_put` (the KV-cache batching write path) -/

/-- `"kv_cache_" + std::to_string(file_id) + ".safetensors"`. -/
def mkFilename (fileId : Nat) : String :=
  String.mk ("kv_cache_".data ++ toDecimal fileId ++ ".safetensors".data)

/-- `filename + "|" + std::to_string(i)`: the serialized location descriptor
written as the index value. -/
def descriptorValue (filename : String) (i : Nat) : String :=
  String.mk (filename.data ++ '|' :: toDecimal i)

/-- The `WriteBatch` of `batch_put` applied to the index: for each position
`i`, `batch.Put(keys[i], filename|i)`, applied in order (a later duplicate key
shadows an earlier one). -/
def writeBatchPuts (idx : Index) (filename : String) (keys : List Key)
    (start : Nat) : Index :=
  match keys with
  | [] => idx
  | k :: rest =>
    writeBatchPuts (ixPut idx k (descriptorValue filename start)) filename rest (start + 1)

/-- `RocksDBWrapper::batch_put`: arity mismatch throws (before the `try`
block); inside it, the fresh file name is derived from the counter value
`fileId`, the whole payload batch is delegated to the blob writer, and — the
writer's reported metadata being ignored — one index entry `keys[i] ↦
"filename|i"` per position is committed in a single atomic `WriteBatch`. A
writer exception is caught and reported as `false` with the index untouched. -/
def batch_put (idx : Index) (fileId : Nat)
    (writer : String → List Payload → Except String (List Nat))
    (keys : List Key) (kvs : List Payload) : Except String (Bool × Index) :=
  if keys.length ≠ kvs.length then
    Except.error "Keys and kv_caches must have the same length"
  else
    let filename := mkFilename fileId
    match writer filename kvs with
    | Except.error _ => Except.ok (false, idx)
    | Except.ok _metadata => Except.ok (true, writeBatchPuts idx filename keys 0)

/-! ### `RocksDBWrapper::batch_get` (the KV-cache batching read path) -/

/-- Lexicographic comparison of character lists (`std::string operator<`). -/
def lexLt : List Char → List Char → Bool
  | [], [] => false
  | [], _ :: _ => true
  | _ :: _, [] => false
  | c :: cs, d :: ds =>
    if c.toNat < d.toNat then true
    else if d.toNat < c.toNat then false
    else lexLt cs ds

/-- `std::string` ordering used by the `std::map` keyed by filename. -/
def strLt (a b : String) : Bool := lexLt a.data b.data

/-- `file_offsets[filename].push_back(offset)` on the `std::map` (kept sorted
by filename, as `std::map` iteration order is). -/
def foInsert : List (String × List Int) → String → Int → List (String × List Int)
  | [], f, o => [(f, [o])]
  | (g, os) :: rest, f, o =>
    if f = g then (g, os ++ [o]) :: rest
    else if strLt f g then (f, [o]) :: (g, os) :: rest
    else (g, os) :: foInsert rest f o

/-- The first loop of `batch_get`: per key, an ok status with a `'|'` in the
value parses into (filename, offset) — a failing `std::stoi` is the exception
that aborts the whole call — and records the original position in
`result_indices`; an ok status without `'|'` records nothing; a non-ok status
records the `-1` marker. -/
def collect (stats : List Status) (i : Nat) (fo : List (String × List Int))
    (ri : List Int) : Except String (List (String × List Int) × List Int) :=
  match stats with
  | [] => Except.ok (fo, ri)
  | s :: rest =>
    match s with
    | Status.ok v =>
      match splitPipe v with
      | some p =>
        match stoi p.2 with
        | none => Except.error "stoi: invalid argument"
        | some o => collect rest (i + 1) (foInsert fo p.1 o) (ri ++ [(i : Int)])
      | none => collect rest (i + 1) fo ri
    | _ => collect rest (i + 1) fo (ri ++ [(-1 : Int)])

/-- `values[result_indices[i]]`: the stored value the scatter loop re-reads at
a recorded position (the `MultiGet` output string, empty for a non-ok
status). -/
def statValue (stats : List Status) (n : Nat) : String :=
  match stats[n]? with
  | some (Status.ok w) => w
  | _ => ""

/-- The scatter loop for one file: walk `result_indices`; at each nonnegative
recorded position whose stored value re-parses to this filename, place the
next loaded payload (`loaded_caches[loaded_idx++]`, an out-of-range access
being the exception that aborts the whole call). -/
def scatterFile (stats : List Status) (ri : List Int) (filename : String)
    (loaded : List Payload) (loadedIdx : Nat) (results : List (Option Payload)) :
    Except String (List (Option Payload)) :=
  match ri with
  | [] => Except.ok results
  | idx :: rest =>
    if 0 ≤ idx then
      match splitPipe (statValue stats idx.toNat) with
      | some p =>
        if p.1 = filename then
          match loaded[loadedIdx]? with
          | none => Except.error "list index out of range"
          | some pay =>
            scatterFile stats rest filename loaded (loadedIdx + 1)
              (results.set idx.toNat (some pay))
        else scatterFile stats rest filename loaded loadedIdx results
      | none => scatterFile stats rest filename loaded loadedIdx results
    else scatterFile stats rest filename loaded loadedIdx results

/-- The per-file loop of `batch_get`: one blob-reader call per `file_offsets`
entry, scattering each loaded batch into the result list; also returns the log
of filenames actually passed to the reader (an exception stops the loop). -/
def readFiles (reader : String → List Int → Except String (List Payload))
    (stats : List Status) (ri : List Int) (fo : List (String × List Int))
    (results : List (Option Payload)) :
    Except String (List (Option Payload)) × List String :=
  match fo with
  | [] => (Except.ok results, [])
  | (f, os) :: rest =>
    match reader f os with
    | Except.error e => (Except.error e, [f])
    | Except.ok loaded =>
      match scatterFile stats ri f loaded 0 results with
      | Except.error e => (Except.error e, [f])
      | Except.ok results2 =>
        let r := readFiles reader stats ri rest results2
        (r.1, f :: r.2)

/-- `batch_get` up to its `catch`: the multi-lookup, the grouping pass, and
the per-file read/scatter loop, plus the blob-reader call log. -/
def batch_get_run (L : Key → Status)
    (reader : String → List Int → Except String (List Payload))
    (keys : List Key) : Except String (List (Option Payload)) × List String :=
  match collect (keys.map L) 0 [] [] with
  | Except.error e => (Except.error e, [])
  | Except.ok p => readFiles reader (keys.map L) p.2 p.1 (List.replicate keys.length none)

/-- The value/exception outcome of the `try` body of `batch_get`. -/
def batch_get_core (L : Key → Status)
    (reader : String → List Int → Except String (List Payload))
    (keys : List Key) : Except String (List (Option Payload)) :=
  (batch_get_run L reader keys).1

/-- The filenames `batch_get` actually hands to the blob reader, in call
order. -/
def batch_getCalls (L : Key → Status)
    (reader : String → List Int → Except String (List Payload))
    (keys : List Key) : List String :=
  (batch_get_run L reader keys).2

/-- `RocksDBWrapper::batch_get`: the `try` body's result, or — any exception
having been caught — the empty `py::list()`. -/
def batch_get (L : Key → Status)
    (reader : String → List Int → Except String (List Payload))
    (keys : List Key) : List (Option Payload) :=
  match batch_get_core L reader keys with
  | Except.ok r => r
  | Except.error _ => []

/-- A key position is resolved when its lookup is ok and the stored value
parses into a pipe-delimited descriptor with a numeric slot. -/
def resolvedAt (stats : List Status) (i : Nat) : Bool :=
  match stats[i]? with
  | some (Status.ok v) =>
    match splitPipe v with
    | some p => (stoi p.2).isSome
    | none => false
  | _ => false

/-- The blob filename a lookup status resolves to, when it does. -/
def fileOfStatus : Status → Option String
  | Status.ok v =>
    match splitPipe v with
    | some p => if (stoi p.2).isSome then some p.1 else none
    | none => none
  | _ => none

/-- The filenames of the resolved descriptors of a status list, in order
(with multiplicity). -/
def resolvedFilesOf (stats : List Status) : List String :=
  stats.filterMap fileOfStatus

/-- The filenames of the resolved descriptors of a `batch_get` call, in key
order (with multiplicity). -/
def resolvedFiles (L : Key → Status) (keys : List Key) : List String :=
  resolvedFilesOf (keys.map L)

/-! ## Lemmas: decimal rendering and parsing -/

theorem digitChar_spec {m : Nat} (hm : m < 10) :
    (digitChar m).isDigit = true ∧ digitChar m ≠ '|' ∧
      (digitChar m).isWhitespace = false ∧ digitChar m ≠ '-' ∧ digitChar m ≠ '+' ∧
      digitVal (digitChar m) = m := by
  interval_cases m <;> exact ⟨by decide, by decide, by decide, by decide, by decide, by decide⟩

theorem toDecAux_append (fuel n : Nat) (acc : List Char) :
    toDecAux fuel n acc = toDecAux fuel n [] ++ acc := by
  induction fuel generalizing n acc with
  | zero => simp [toDecAux]
  | succ fuel ih =>
    by_cases h : n < 10
    · simp [toDecAux, h]
    · rw [toDecAux, toDecAux, if_neg h, if_neg h, ih (n / 10) (digitChar (n % 10) :: acc),
        ih (n / 10) [digitChar (n % 10)]]
      simp

theorem digitsToNat_append_singleton (a : List Char) (c : Char) :
    digitsToNat (a ++ [c]) = digitsToNat a * 10 + digitVal c := by
  simp [digitsToNat, List.foldl_append]

theorem mem_toDecAux {fuel n : Nat} {acc : List Char} {c : Char}
    (hc : c ∈ toDecAux fuel n acc) : (∃ m, m < 10 ∧ c = digitChar m) ∨ c ∈ acc := by
  induction fuel generalizing n acc with
  | zero => right; simpa [toDecAux] using hc
  | succ fuel ih =>
    by_cases h : n < 10
    · simp only [toDecAux, if_pos h, List.mem_cons] at hc
      rcases hc with hc | hc
      · exact Or.inl ⟨n, h, hc⟩
      · exact Or.inr hc
    · rw [toDecAux, if_neg h] at hc
      rcases ih hc with hd | hd
      · exact Or.inl hd
      · rcases List.mem_cons.mp hd with hd | hd
        · exact Or.inl ⟨n % 10, Nat.mod_lt _ (by omega), hd⟩
        · exact Or.inr hd

theorem mem_toDecimal_digit {n : Nat} {c : Char} (hc : c ∈ toDecimal n) :
    ∃ m, m < 10 ∧ c = digitChar m := by
  rcases mem_toDecAux hc with h | h
  · exact h
  · cases h

theorem digitsToNat_toDecAux {fuel n : Nat} (h : n < fuel) :
    digitsToNat (toDecAux fuel n []) = n := by
  induction fuel generalizing n with
  | zero => omega
  | succ fuel ih =>
    by_cases hn : n < 10
    · simp [toDecAux, if_pos hn, digitsToNat, (digitChar_spec hn).2.2.2.2.2]
    · rw [toDecAux, if_neg hn, toDecAux_append, digitsToNat_append_singleton,
        ih (by omega), (digitChar_spec (Nat.mod_lt _ (by omega))).2.2.2.2.2]
      omega

theorem digitsToNat_toDecimal (n : Nat) : digitsToNat (toDecimal n) = n :=
  digitsToNat_toDecAux (Nat.lt_succ_self n)

theorem toDecimal_ne_nil (n : Nat) : toDecimal n ≠ [] := by
  rw [toDecimal, toDecAux]
  by_cases h : n < 10
  · simp [h]
  · rw [if_neg h, toDecAux_append]
    simp

theorem exists_cons_toDecimal (n : Nat) : ∃ c cs, toDecimal n = c :: cs := by
  rcases h : toDecimal n with _ | ⟨c, cs⟩
  · exact absurd h (toDecimal_ne_nil n)
  · exact ⟨c, cs, rfl⟩

theorem takeDigits_all_digits {l : List Char} (h : ∀ c ∈ l, c.isDigit = true) :
    takeDigits l = (l, []) := by
  induction l with
  | nil => rfl
  | cons c cs ih =>
    rw [takeDigits]
    simp only [h c (List.mem_cons_self _ _), if_pos]
    rw [ih (fun d hd => h d (List.mem_cons_of_mem _ hd))]

theorem digitsPrefix_toDecimal (n : Nat) : digitsPrefix (toDecimal n) = some n := by
  have hall : ∀ c ∈ toDecimal n, c.isDigit = true := by
    intro c hc
    rcases mem_toDecimal_digit hc with ⟨m, hm, rfl⟩
    exact (digitChar_spec hm).1
  obtain ⟨c, cs, hl⟩ := exists_cons_toDecimal n
  rw [digitsPrefix, takeDigits_all_digits hall, hl]
  show some (digitsToNat (c :: cs)) = some n
  rw [← hl, digitsToNat_toDecimal]

theorem stoi_mk_not_special {c : Char} {cs : List Char} (hw : c.isWhitespace = false)
    (hminus : c ≠ '-') (hplus : c ≠ '+') :
    stoi (String.mk (c :: cs)) = (digitsPrefix (c :: cs)).map (fun m => (m : Int)) := by
  have hdata : (String.mk (c :: cs)).data = c :: cs := rfl
  rw [stoi]
  simp only [hdata, List.dropWhile_cons, hw, Bool.false_eq_true, if_false,
    if_neg hminus, if_neg hplus]

theorem stoi_natStr (n : Nat) : stoi (natStr n) = some ((n : Nat) : Int) := by
  obtain ⟨c, cs, hl⟩ := exists_cons_toDecimal n
  obtain ⟨m, hm, hc⟩ :=
    mem_toDecimal_digit
      (show c ∈ toDecimal n by rw [hl]; exact List.mem_cons_self _ _)
  have hmk : natStr n = String.mk (c :: cs) := by rw [natStr, hl]
  rw [hmk, stoi_mk_not_special (by rw [hc]; exact (digitChar_spec hm).2.2.1)
      (by rw [hc]; exact (digitChar_spec hm).2.2.2.1)
      (by rw [hc]; exact (digitChar_spec hm).2.2.2.2.1),
    ← hl, digitsPrefix_toDecimal]
  rfl

/-! ## Lemmas: the pipe splitter and descriptors -/

theorem findPipe_append {a b : List Char} (ha : '|' ∉ a) :
    findPipe (a ++ '|' :: b) = some (a, b) := by
  induction a with
  | nil => simp [findPipe]
  | cons c cs ih =>
    have hc : c ≠ '|' := fun h => ha (h ▸ List.mem_cons_self _ _)
    rw [List.cons_append, findPipe, if_neg hc, ih (fun h => ha (List.mem_cons_of_mem _ h))]

theorem pipe_not_mem_mkFilename (fileId : Nat) : '|' ∉ (mkFilename fileId).data := by
  intro h
  rw [mkFilename] at h
  simp only [List.mem_append] at h
  rcases h with (h | h) | h
  · revert h; decide
  · rcases mem_toDecimal_digit h with ⟨m, hm, he⟩
    exact (digitChar_spec hm).2.1 he.symm
  · revert h; decide

theorem splitPipe_descriptorValue {f : String} (hf : '|' ∉ f.data) (i : Nat) :
    splitPipe (descriptorValue f i) = some (f, natStr i) := by
  rw [splitPipe, descriptorValue]
  have : (String.mk (f.data ++ '|' :: toDecimal i)).data = f.data ++ '|' :: toDecimal i := rfl
  rw [this, findPipe_append hf]
  rfl

theorem splitPipe_descriptor_mkFilename (fileId i : Nat) :
    splitPipe (descriptorValue (mkFilename fileId) i) = some (mkFilename fileId, natStr i) :=
  splitPipe_descriptorValue (pipe_not_mem_mkFilename fileId) i

/-! ## Lemmas: the index and the write batch -/

theorem ixGet_ixPut_self (idx : Index) (k : Key) (v : String) :
    ixGet (ixPut idx k v) k = some v := by
  simp [ixGet, ixPut]

theorem ixGet_ixPut_ne (idx : Index) {k k2 : Key} (v : String) (h : k2 ≠ k) :
    ixGet (ixPut idx k v) k2 = ixGet idx k2 := by
  simp [ixGet, ixPut, h]

theorem ixGet_ixDelete_self (idx : Index) (k : Key) :
    ixGet (ixDelete idx k) k = none := by
  induction idx with
  | nil => rfl
  | cons p rest ih =>
    obtain ⟨k2, v⟩ := p
    rw [ixDelete, List.filter_cons]
    by_cases h : k2 = k
    · rw [if_neg (by simp [h])]
      exact ih
    · rw [if_pos (by simp [h])]
      rw [ixGet, if_neg (fun he => h he.symm)]
      exact ih

theorem writeBatchPuts_of_not_mem {k : Key} {keys : List Key}
    (idx : Index) (filename : String) (start : Nat) (h : k ∉ keys) :
    ixGet (writeBatchPuts idx filename keys start) k = ixGet idx k := by
  induction keys generalizing idx start with
  | nil => rfl
  | cons k2 rest ih =>
    rw [writeBatchPuts]
    rw [ih _ _ (fun hm => h (List.mem_cons_of_mem _ hm)),
      ixGet_ixPut_ne _ _ (fun he => h (by rw [he]; exact List.mem_cons_self _ _))]

theorem writeBatchPuts_get {keys : List Key} (hnd : keys.Nodup)
    (idx : Index) (filename : String) (start : Nat) {j : Nat} {k : Key}
    (hj : keys[j]? = some k) :
    ixGet (writeBatchPuts idx filename keys start) k =
      some (descriptorValue filename (start + j)) := by
  induction keys generalizing idx start j with
  | nil => simp at hj
  | cons k2 rest ih =>
    rcases List.nodup_cons.mp hnd with ⟨hk2, hnd2⟩
    match j with
    | 0 =>
      have hke : k2 = k := by simpa using hj
      subst hke
      rw [writeBatchPuts, writeBatchPuts_of_not_mem _ _ _ hk2, ixGet_ixPut_self,
        Nat.add_zero]
    | j + 1 =>
      have hj2 : rest[j]? = some k := by simpa using hj
      have harith : start + 1 + j = start + (j + 1) := by omega
      rw [writeBatchPuts, ih hnd2 _ _ hj2, harith]

theorem writeBatchPuts_covered {k : Key} {keys : List Key}
    (idx : Index) (filename : String) (start : Nat) (h : k ∈ keys) :
    ∃ v, ixGet (writeBatchPuts idx filename keys start) k = some v := by
  induction keys generalizing idx start with
  | nil => cases h
  | cons k2 rest ih =>
    rw [writeBatchPuts]
    by_cases hm : k ∈ rest
    · exact ih _ _ hm
    · have hke : k = k2 := by
        rcases List.mem_cons.mp h with he | hm2
        · exact he
        · exact absurd hm2 hm
      exact ⟨_, by rw [writeBatchPuts_of_not_mem _ _ _ hm, hke, ixGet_ixPut_self]⟩

/-! ## Lemmas: multiget -/

theorem multigetGo_empty_value {L : Key → Status} {k : Key}
    (pre post : List Key) (acc : List (Key × Option String))
    (hpre : ∀ k2 ∈ pre, L k2 ≠ Status.ok "") (hk : L k = Status.ok "") :
    multigetGo L (pre ++ k :: post) acc =
      Except.error ("Empty value for key: " ++ k) := by
  induction pre generalizing acc with
  | nil =>
    rw [List.nil_append, multigetGo, hk]
    simp
  | cons k2 rest ih =>
    have hne := hpre k2 (List.mem_cons_self _ _)
    have hrest : ∀ k3 ∈ rest, L k3 ≠ Status.ok "" :=
      fun k3 hm => hpre k3 (List.mem_cons_of_mem _ hm)
    rcases hs : L k2 with v | _ | e
    · have hv : ¬ v = "" := fun he => hne (by rw [hs, he])
      rw [List.cons_append, multigetGo, hs]
      simp only [if_neg hv]
      exact ih _ hrest
    · rw [List.cons_append, multigetGo, hs]
      exact ih _ hrest
    · rw [List.cons_append, multigetGo, hs]
      exact ih _ hrest

/-! ## Lemmas: the string order and the file_offsets map -/

theorem lexLt_irrefl (l : List Char) : lexLt l l = false := by
  induction l with
  | nil => rfl
  | cons c cs ih => simp [lexLt, ih]

theorem strLt_ne {a b : String} (h : strLt a b = true) : a ≠ b := by
  intro he
  rw [he, strLt, lexLt_irrefl] at h
  cases h

theorem char_eq_of_toNat_eq {c d : Char} (h : c.toNat = d.toNat) : c = d :=
  Char.eq_of_val_eq (UInt32.ext h)

theorem str_ext {a b : String} (h : a.data = b.data) : a = b :=
  congrArg String.mk h

theorem lexLt_total {a b : List Char} (hne : a ≠ b)
    (hab : lexLt a b = false) : lexLt b a = true := by
  induction a generalizing b with
  | nil =>
    cases b with
    | nil => exact absurd rfl hne
    | cons d ds => simp [lexLt] at hab
  | cons c cs ih =>
    cases b with
    | nil => rfl
    | cons d ds =>
      rw [lexLt] at hab
      rw [lexLt]
      by_cases h1 : c.toNat < d.toNat
      · rw [if_pos h1] at hab
        cases hab
      · rw [if_neg h1] at hab
        by_cases h2 : d.toNat < c.toNat
        · rw [if_pos h2]
        · rw [if_neg h2] at hab
          rw [if_neg (fun h => h2 h), if_neg (fun h => h1 h)]
          have hcd : c = d := char_eq_of_toNat_eq (by omega)
          refine ih (fun he => hne ?_) hab
          rw [hcd, he]

theorem strLt_total {a b : String} (hne : a ≠ b) (hab : strLt a b = false) :
    strLt b a = true :=
  lexLt_total (fun h => hne (str_ext h)) hab

theorem lexLt_trans {a b c : List Char} (hab : lexLt a b = true)
    (hbc : lexLt b c = true) : lexLt a c = true := by
  induction a generalizing b c with
  | nil =>
    cases c with
    | nil =>
      cases b with
      | nil => cases hab
      | cons d ds => simp [lexLt] at hbc
    | cons e es => rfl
  | cons x xs ih =>
    cases b with
    | nil => simp [lexLt] at hab
    | cons y ys =>
      cases c with
      | nil => simp [lexLt] at hbc
      | cons z zs =>
        rw [lexLt] at hab hbc ⊢
        by_cases h1 : x.toNat < y.toNat
        · by_cases h2 : y.toNat < z.toNat
          · rw [if_pos (by omega)]
          · rw [if_neg h2] at hbc
            by_cases h3 : z.toNat < y.toNat
            · rw [if_pos h3] at hbc
              cases hbc
            · rw [if_pos (by omega)]
        · rw [if_neg h1] at hab
          by_cases h4 : y.toNat < x.toNat
          · rw [if_pos h4] at hab
            cases hab
          · rw [if_neg h4] at hab
            by_cases h2 : y.toNat < z.toNat
            · rw [if_pos (by omega)]
            · rw [if_neg h2] at hbc
              by_cases h3 : z.toNat < y.toNat
              · rw [if_pos h3] at hbc
                cases hbc
              · rw [if_neg h3] at hbc
                rw [if_neg (by omega), if_neg (by omega)]
                exact ih hab hbc

theorem strLt_trans {a b c : String} (hab : strLt a b = true)
    (hbc : strLt b c = true) : strLt a c = true :=
  lexLt_trans hab hbc

/-- Sortedness of the `std::map` key sequence. -/
def FoSorted (fo : List (String × List Int)) : Prop :=
  List.Pairwise (fun a b => strLt a b = true) (fo.map Prod.fst)

theorem mem_foInsert_fst {fo : List (String × List Int)} {f g : String} {o : Int} :
    g ∈ (foInsert fo f o).map Prod.fst ↔ (g = f ∨ g ∈ fo.map Prod.fst) := by
  induction fo with
  | nil => simp [foInsert]
  | cons p rest ih =>
    obtain ⟨h, os⟩ := p
    rw [foInsert]
    by_cases h1 : f = h
    · rw [if_pos h1, h1]
      simp only [List.map_cons, List.mem_cons]
      tauto
    · rw [if_neg h1]
      by_cases h2 : strLt f h
      · rw [if_pos h2]
        simp only [List.map_cons, List.mem_cons]
      · rw [if_neg h2]
        simp only [List.map_cons, List.mem_cons] at ih ⊢
        rw [ih]
        tauto

theorem foInsert_sorted {fo : List (String × List Int)} {f : String} {o : Int}
    (hs : FoSorted fo) : FoSorted (foInsert fo f o) := by
  induction fo with
  | nil => simp [foInsert, FoSorted]
  | cons p rest ih =>
    obtain ⟨h, os⟩ := p
    rw [FoSorted, List.map_cons, List.pairwise_cons] at hs
    obtain ⟨hall, hrest⟩ := hs
    rw [foInsert]
    by_cases h1 : f = h
    · rw [if_pos h1]
      rw [FoSorted, List.map_cons, List.pairwise_cons]
      exact ⟨hall, hrest⟩
    · rw [if_neg h1]
      by_cases h2 : strLt f h
      · rw [if_pos h2]
        rw [FoSorted, List.map_cons, List.map_cons, List.pairwise_cons]
        constructor
        · intro b hb
          rcases List.mem_cons.mp hb with rfl | hb2
          · exact h2
          · exact strLt_trans h2 (hall b hb2)
        · rw [List.pairwise_cons]
          exact ⟨hall, hrest⟩
      · rw [if_neg h2]
        rw [FoSorted, List.map_cons, List.pairwise_cons]
        constructor
        · intro b hb
          rcases mem_foInsert_fst.mp hb with rfl | hb2
          · exact strLt_total h1 (by simpa using h2)
          · exact hall b hb2
        · exact ih hrest

theorem FoSorted.fst_nodup {fo : List (String × List Int)} (hs : FoSorted fo) :
    (fo.map Prod.fst).Nodup :=
  List.Pairwise.imp (fun h => strLt_ne h) hs

/-! ## Lemmas: the collect pass of batch_get -/

theorem resolvedAt_cons_succ (s : Status) (rest : List Status) (j : Nat) :
    resolvedAt (s :: rest) (j + 1) = resolvedAt rest j := by
  rw [resolvedAt, resolvedAt, List.getElem?_cons_succ]

theorem collect_notFound {stats : List Status}
    (h : ∀ s ∈ stats, s = Status.notFound) :
    ∀ (i : Nat) (fo : List (String × List Int)) (ri : List Int),
    collect stats i fo ri = Except.ok (fo, ri ++ stats.map (fun _ => (-1 : Int))) := by
  induction stats with
  | nil => intro i fo ri; simp [collect]
  | cons s rest ih =>
    intro i fo ri
    have hs := h s (List.mem_cons_self _ _)
    subst hs
    simp only [collect]
    rw [ih (fun s2 hs2 => h s2 (List.mem_cons_of_mem _ hs2))]
    simp

theorem collect_ri_mem : ∀ (stats : List Status) (i : Nat)
    (fo fo2 : List (String × List Int)) (ri ri2 : List Int),
    collect stats i fo ri = Except.ok (fo2, ri2) →
    ∀ x ∈ ri2, x ∈ ri ∨ x = -1 ∨
      ∃ j : Nat, x = (j : Int) ∧ resolvedAt stats (j - i) = true ∧ i ≤ j := by
  intro stats
  induction stats with
  | nil =>
    intro i fo fo2 ri ri2 hc x hx
    rw [collect] at hc
    injection hc with hc
    injection hc with hc1 hc2
    subst hc2
    exact Or.inl hx
  | cons s rest ih =>
    intro i fo fo2 ri ri2 hc x hx
    rcases s with v | _ | e
    · rcases hsp : splitPipe v with _ | p
      · simp only [collect, hsp] at hc
        rcases ih (i + 1) _ _ _ _ hc x hx with h1 | h1 | ⟨j, hj1, hj2, hj3⟩
        · exact Or.inl h1
        · exact Or.inr (Or.inl h1)
        · refine Or.inr (Or.inr ⟨j, hj1, ?_, by omega⟩)
          have : j - i = (j - (i + 1)) + 1 := by omega
          rw [this, resolvedAt_cons_succ]
          exact hj2
      · rcases hst : stoi p.2 with _ | o
        · simp only [collect, hsp, hst] at hc
          exact (Except.noConfusion hc)
        · simp only [collect, hsp, hst] at hc
          rcases ih (i + 1) _ _ _ _ hc x hx with h1 | h1 | ⟨j, hj1, hj2, hj3⟩
          · rcases List.mem_append.mp h1 with h2 | h2
            · exact Or.inl h2
            · refine Or.inr (Or.inr ⟨i, by simpa using h2, ?_, le_refl i⟩)
              simp only [Nat.sub_self, resolvedAt, List.getElem?_cons_zero, hsp, hst,
                Option.isSome_some]
          · exact Or.inr (Or.inl h1)
          · refine Or.inr (Or.inr ⟨j, hj1, ?_, by omega⟩)
            have : j - i = (j - (i + 1)) + 1 := by omega
            rw [this, resolvedAt_cons_succ]
            exact hj2
    all_goals {
      simp only [collect] at hc
      rcases ih (i + 1) _ _ _ _ hc x hx with h1 | h1 | ⟨j, hj1, hj2, hj3⟩
      · rcases List.mem_append.mp h1 with h2 | h2
        · exact Or.inl h2
        · exact Or.inr (Or.inl (by simpa using h2))
      · exact Or.inr (Or.inl h1)
      · refine Or.inr (Or.inr ⟨j, hj1, ?_, by omega⟩)
        have : j - i = (j - (i + 1)) + 1 := by omega
        rw [this, resolvedAt_cons_succ]
        exact hj2
    }

theorem collect_fo_spec : ∀ (stats : List Status) (i : Nat)
    (fo fo2 : List (String × List Int)) (ri ri2 : List Int),
    collect stats i fo ri = Except.ok (fo2, ri2) →
    (∀ g, g ∈ fo2.map Prod.fst ↔ (g ∈ fo.map Prod.fst ∨ g ∈ resolvedFilesOf stats)) ∧
      (FoSorted fo → FoSorted fo2) := by
  intro stats
  induction stats with
  | nil =>
    intro i fo fo2 ri ri2 hc
    rw [collect] at hc
    injection hc with hc
    injection hc with hc1 hc2
    subst hc1
    exact ⟨fun g => by simp [resolvedFilesOf], fun h => h⟩
  | cons s rest ih =>
    intro i fo fo2 ri ri2 hc
    rcases s with v | _ | e
    · rcases hsp : splitPipe v with _ | p
      · simp only [collect, hsp] at hc
        obtain ⟨hmem, hsort⟩ := ih (i + 1) _ _ _ _ hc
        refine ⟨fun g => ?_, hsort⟩
        rw [hmem g]
        simp only [resolvedFilesOf, List.filterMap_cons, fileOfStatus, hsp]
      · rcases hst : stoi p.2 with _ | o
        · simp only [collect, hsp, hst] at hc
          exact (Except.noConfusion hc)
        · simp only [collect, hsp, hst] at hc
          obtain ⟨hmem, hsort⟩ := ih (i + 1) _ _ _ _ hc
          constructor
          · intro g
            rw [hmem g, mem_foInsert_fst]
            simp only [resolvedFilesOf, List.filterMap_cons, fileOfStatus, hsp, hst,
              Option.isSome_some, if_true, List.mem_cons]
            tauto
          · intro hs
            exact hsort (foInsert_sorted hs)
    all_goals {
      simp only [collect] at hc
      obtain ⟨hmem, hsort⟩ := ih (i + 1) _ _ _ _ hc
      refine ⟨fun g => ?_, hsort⟩
      rw [hmem g]
      simp only [resolvedFilesOf, List.filterMap_cons, fileOfStatus]
    }

/-! ## Lemmas: the scatter loop and the per-file read loop -/

theorem scatterFile_length : ∀ (ri : List Int) (stats : List Status) (F : String)
    (loaded : List Payload) (li : Nat) (results r : List (Option Payload)),
    scatterFile stats ri F loaded li results = Except.ok r →
    r.length = results.length := by
  intro ri
  induction ri with
  | nil =>
    intro stats F loaded li results r h
    rw [scatterFile] at h
    injection h with h
    rw [← h]
  | cons idx rest ih =>
    intro stats F loaded li results r h
    rw [scatterFile] at h
    by_cases h0 : (0 : Int) ≤ idx
    · rw [if_pos h0] at h
      rcases hsp : splitPipe (statValue stats idx.toNat) with _ | p
      · simp only [hsp] at h
        exact ih _ _ _ _ _ _ h
      · simp only [hsp] at h
        by_cases hf : p.1 = F
        · rw [if_pos hf] at h
          rcases hld : loaded[li]? with _ | pay
          · simp only [hld] at h
            exact (Except.noConfusion h)
          · simp only [hld] at h
            rw [ih _ _ _ _ _ _ h, List.length_set]
        · rw [if_neg hf] at h
          exact ih _ _ _ _ _ _ h
    · rw [if_neg h0] at h
      exact ih _ _ _ _ _ _ h

theorem scatterFile_not_mem {p : Nat} : ∀ (ri : List Int) (stats : List Status)
    (F : String) (loaded : List Payload) (li : Nat)
    (results r : List (Option Payload)), ((p : Int) ∉ ri) →
    scatterFile stats ri F loaded li results = Except.ok r →
    r[p]? = results[p]? := by
  intro ri
  induction ri with
  | nil =>
    intro stats F loaded li results r _ h
    rw [scatterFile] at h
    injection h with h
    rw [← h]
  | cons idx rest ih =>
    intro stats F loaded li results r hp h
    have hp1 : (p : Int) ≠ idx := fun he => hp (he ▸ List.mem_cons_self _ _)
    have hp2 : (p : Int) ∉ rest := fun hm => hp (List.mem_cons_of_mem _ hm)
    rw [scatterFile] at h
    by_cases h0 : (0 : Int) ≤ idx
    · rw [if_pos h0] at h
      rcases hsp : splitPipe (statValue stats idx.toNat) with _ | q
      · simp only [hsp] at h
        exact ih _ _ _ _ _ _ hp2 h
      · simp only [hsp] at h
        by_cases hf : q.1 = F
        · rw [if_pos hf] at h
          rcases hld : loaded[li]? with _ | pay
          · simp only [hld] at h
            exact (Except.noConfusion h)
          · simp only [hld] at h
            rw [ih _ _ _ _ _ _ hp2 h]
            exact List.getElem?_set_ne (by omega)
        · rw [if_neg hf] at h
          exact ih _ _ _ _ _ _ hp2 h
    · rw [if_neg h0] at h
      exact ih _ _ _ _ _ _ hp2 h

theorem scatterFile_seq {stats : List Status} {F : String} {kvs : List Payload} :
    ∀ (t s : Nat) (results : List (Option Payload)),
    (∀ j, s ≤ j → j < s + t → ∃ r2, splitPipe (statValue stats j) = some (F, r2)) →
    s + t ≤ kvs.length → s + t ≤ results.length →
    ∃ R, scatterFile stats ((List.range' s t).map (fun i : Nat => (i : Int))) F kvs s results =
        Except.ok R ∧
      ∀ q : Nat, R[q]? = if s ≤ q ∧ q < s + t then (kvs[q]?).map some else results[q]? := by
  intro t
  induction t with
  | zero =>
    intro s results _ _ _
    refine ⟨results, by simp [scatterFile], fun q => ?_⟩
    rw [if_neg (by omega)]
  | succ t ih =>
    intro s results hparse hlen hres
    obtain ⟨r2, hsp⟩ := hparse s (le_refl s) (by omega)
    have hs : s < kvs.length := by omega
    obtain ⟨pay, hpay⟩ : ∃ pay, kvs[s]? = some pay :=
      ⟨kvs[s], List.getElem?_eq_getElem hs⟩
    rw [List.range'_succ, List.map_cons]
    rw [scatterFile]
    rw [if_pos (by omega)]
    have htn : ((s : Int)).toNat = s := rfl
    simp only [htn, hsp, hpay, eq_self_iff_true, if_true]
    obtain ⟨R, hR, hchar⟩ := ih (s + 1) (results.set s (some pay))
      (fun j hj1 hj2 => hparse j (by omega) (by omega)) (by omega)
      (by rw [List.length_set]; omega)
    refine ⟨R, hR, fun q => ?_⟩
    rw [hchar q]
    by_cases hq1 : s + 1 ≤ q ∧ q < s + 1 + t
    · rw [if_pos hq1, if_pos (by omega)]
    · rw [if_neg hq1]
      by_cases hq2 : q = s
      · subst hq2
        rw [if_pos (by omega), List.getElem?_set_self (by omega), hpay]
        rfl
      · rw [if_neg (by omega), List.getElem?_set_ne (by omega)]

theorem loadSlots_range (ps : List Payload) :
    ∀ (t s : Nat), s + t ≤ ps.length →
    loadSlots ps ((List.range' s t).map (fun i : Nat => (i : Int))) =
      Except.ok ((ps.drop s).take t) := by
  intro t
  induction t with
  | zero => intro s _; simp [loadSlots]
  | succ t ih =>
    intro s hst
    have hs : s < ps.length := by omega
    rw [List.range'_succ, List.map_cons, loadSlots]
    rw [if_neg (by omega)]
    have htn : ((s : Int)).toNat = s := rfl
    rw [htn, List.getElem?_eq_getElem hs, ih (s + 1) (by omega)]
    rw [List.drop_eq_getElem_cons hs, List.take_succ_cons]

theorem readFiles_fst_length : ∀ (fo : List (String × List Int))
    (reader : String → List Int → Except String (List Payload))
    (stats : List Status) (ri : List Int) (results r : List (Option Payload)),
    (readFiles reader stats ri fo results).1 = Except.ok r →
    r.length = results.length := by
  intro fo
  induction fo with
  | nil =>
    intro reader stats ri results r h
    rw [readFiles] at h
    injection h with h
    rw [← h]
  | cons e rest ih =>
    obtain ⟨f, os⟩ := e
    intro reader stats ri results r h
    rw [readFiles] at h
    rcases hrd : reader f os with e2 | loaded
    · simp only [hrd] at h
      exact (Except.noConfusion h)
    · simp only [hrd] at h
      rcases hsc : scatterFile stats ri f loaded 0 results with e2 | results2
      · simp only [hsc] at h
        exact (Except.noConfusion h)
      · simp only [hsc] at h
        rw [ih _ _ _ _ _ h]
        exact scatterFile_length _ _ _ _ _ _ _ hsc

theorem readFiles_fst_not_mem {p : Nat} : ∀ (fo : List (String × List Int))
    (reader : String → List Int → Except String (List Payload))
    (stats : List Status) (ri : List Int) (results r : List (Option Payload)),
    ((p : Int) ∉ ri) →
    (readFiles reader stats ri fo results).1 = Except.ok r →
    r[p]? = results[p]? := by
  intro fo
  induction fo with
  | nil =>
    intro reader stats ri results r _ h
    rw [readFiles] at h
    injection h with h
    rw [← h]
  | cons e rest ih =>
    obtain ⟨f, os⟩ := e
    intro reader stats ri results r hp h
    rw [readFiles] at h
    rcases hrd : reader f os with e2 | loaded
    · simp only [hrd] at h
      exact (Except.noConfusion h)
    · simp only [hrd] at h
      rcases hsc : scatterFile stats ri f loaded 0 results with e2 | results2
      · simp only [hsc] at h
        exact (Except.noConfusion h)
      · simp only [hsc] at h
        rw [ih _ _ _ _ _ hp h]
        exact scatterFile_not_mem _ _ _ _ _ _ _ hp hsc

theorem readFiles_snd_sublist : ∀ (fo : List (String × List Int))
    (reader : String → List Int → Except String (List Payload))
    (stats : List Status) (ri : List Int) (results : List (Option Payload)),
    (readFiles reader stats ri fo results).2.Sublist (fo.map Prod.fst) := by
  intro fo
  induction fo with
  | nil => intro reader stats ri results; rw [readFiles]; exact List.Sublist.refl _
  | cons e rest ih =>
    obtain ⟨f, os⟩ := e
    intro reader stats ri results
    rw [readFiles]
    rcases hrd : reader f os with e2 | loaded
    · simp only [hrd]
      exact List.Sublist.cons₂ f (List.nil_sublist _)
    · simp only [hrd]
      rcases hsc : scatterFile stats ri f loaded 0 results with e2 | results2
      · simp only [hsc]
        exact List.Sublist.cons₂ f (List.nil_sublist _)
      · simp only [hsc]
        exact List.Sublist.cons₂ f (ih _ _ _ _)

theorem readFiles_snd_of_ok : ∀ (fo : List (String × List Int))
    (reader : String → List Int → Except String (List Payload))
    (stats : List Status) (ri : List Int) (results r : List (Option Payload)),
    (readFiles reader stats ri fo results).1 = Except.ok r →
    (readFiles reader stats ri fo results).2 = fo.map Prod.fst := by
  intro fo
  induction fo with
  | nil => intro reader stats ri results r _; rw [readFiles]; rfl
  | cons e rest ih =>
    obtain ⟨f, os⟩ := e
    intro reader stats ri results r h
    rw [readFiles] at h ⊢
    rcases hrd : reader f os with e2 | loaded
    · simp only [hrd] at h
      exact (Except.noConfusion h)
    · simp only [hrd] at h ⊢
      rcases hsc : scatterFile stats ri f loaded 0 results with e2 | results2
      · simp only [hsc] at h
        exact (Except.noConfusion h)
      · simp only [hsc] at h ⊢
        rw [List.map_cons]
        simp only [List.cons.injEq, true_and]
        exact ih _ _ _ _ _ h

/-! ## Lemmas: the round trip through one blob file -/

theorem foInsert_single (F : String) (os : List Int) (o : Int) :
    foInsert [(F, os)] F o = [(F, os ++ [o])] := by
  rw [foInsert, if_pos rfl]

theorem collect_samefile {F : String} (hF : '|' ∉ F.data) :
    ∀ (t s : Nat) (os ri : List Int),
    collect ((List.range' s t).map (fun i => Status.ok (descriptorValue F i))) s
        [(F, os)] ri =
      Except.ok ([(F, os ++ (List.range' s t).map (fun i : Nat => (i : Int)))],
        ri ++ (List.range' s t).map (fun i : Nat => (i : Int))) := by
  intro t
  induction t with
  | zero => intro s os ri; simp [collect]
  | succ t ih =>
    intro s os ri
    simp only [List.range'_succ, List.map_cons]
    simp only [collect, splitPipe_descriptorValue hF, stoi_natStr]
    rw [foInsert_single, ih (s + 1) (os ++ [(s : Int)]) (ri ++ [(s : Int)])]
    simp

theorem collect_roundtrip {F : String} (hF : '|' ∉ F.data) (n : Nat) :
    collect ((List.range' 0 n).map (fun i => Status.ok (descriptorValue F i))) 0 [] [] =
      Except.ok
        (if n = 0 then [] else [(F, (List.range' 0 n).map (fun i : Nat => (i : Int)))],
          (List.range' 0 n).map (fun i : Nat => (i : Int))) := by
  match n with
  | 0 => simp [collect]
  | t + 1 =>
    simp only [List.range'_succ, List.map_cons]
    simp only [collect, splitPipe_descriptorValue hF, stoi_natStr]
    have hfi : foInsert [] F ((0 : Nat) : Int) = [(F, [((0 : Nat) : Int)])] := rfl
    rw [hfi, collect_samefile hF t 1 [((0 : Nat) : Int)] ([] ++ [((0 : Nat) : Int)])]
    simp

theorem getElem?_range'_zero {n j : Nat} (h : j < n) : (List.range' 0 n)[j]? = some j := by
  rw [List.getElem?_range' 0 1 h]
  simp

/-- The heart of the round trip: after the write batch of `batch_put` has
installed `keys[i] ↦ "F|i"` for pairwise-distinct keys, `batch_get` over the
same keys — reading from a blob store holding the payload batch in file `F` —
returns every payload at its submission position. -/
theorem batch_get_after_writeBatch (idx : Index) (bs : BlobStore) (fid : Nat)
    (keys : List Key) (kvs : List Payload) (hnd : keys.Nodup)
    (hlen : keys.length = kvs.length) :
    batch_get (ixLookup (writeBatchPuts idx (mkFilename fid) keys 0))
      (load_kv_caches (fun g => if g = mkFilename fid then some kvs else bs g)) keys =
      kvs.map some := by
  set F := mkFilename fid with hFdef
  have hF : '|' ∉ F.data := pipe_not_mem_mkFilename fid
  set L := ixLookup (writeBatchPuts idx F keys 0) with hL
  have hstats : keys.map L =
      (List.range' 0 keys.length).map (fun i => Status.ok (descriptorValue F i)) := by
    apply List.ext_getElem?
    intro j
    rw [List.getElem?_map, List.getElem?_map]
    by_cases hj : j < keys.length
    · have hk : keys[j]? = some keys[j] := List.getElem?_eq_getElem hj
      rw [hk, getElem?_range'_zero hj]
      have hgj : ixGet (writeBatchPuts idx F keys 0) keys[j] =
          some (descriptorValue F (0 + j)) := writeBatchPuts_get hnd idx F 0 hk
      rw [Nat.zero_add] at hgj
      rw [hL]
      simp only [Option.map_some']
      rw [ixLookup, hgj]
    · have h1 : keys[j]? = none := by
        rw [List.getElem?_eq_none_iff]
        omega
      have h2 : (List.range' 0 keys.length)[j]? = none := by
        rw [List.getElem?_eq_none_iff]
        simp only [List.length_range']
        omega
      rw [h1, h2]
      rfl
  have hstat1 : ∀ j, j < keys.length →
      (keys.map L)[j]? = some (Status.ok (descriptorValue F j)) := by
    intro j hj
    rw [hstats, List.getElem?_map, getElem?_range'_zero hj]
    rfl
  by_cases hn0 : keys.length = 0
  · have hkeys : keys = [] := List.eq_nil_of_length_eq_zero hn0
    have hkvs : kvs = [] := List.eq_nil_of_length_eq_zero (by omega)
    subst hkeys
    subst hkvs
    rfl
  · obtain ⟨m, hm⟩ : ∃ m, keys.length = m + 1 := ⟨keys.length - 1, by omega⟩
    have hrun1 : collect (keys.map L) 0 [] [] =
        Except.ok ([(F, (List.range' 0 (m + 1)).map (fun i : Nat => (i : Int)))],
          (List.range' 0 (m + 1)).map (fun i : Nat => (i : Int))) := by
      rw [hstats, hm, collect_roundtrip hF (m + 1)]
      rw [if_neg (Nat.succ_ne_zero m)]
    have hload : load_kv_caches (fun g => if g = F then some kvs else bs g) F
        ((List.range' 0 (m + 1)).map (fun i : Nat => (i : Int))) = Except.ok kvs := by
      rw [load_kv_caches]
      simp only [eq_self_iff_true, if_true]
      rw [loadSlots_range kvs (m + 1) 0 (by omega), List.drop_zero,
        show m + 1 = kvs.length from by omega, List.take_length]
    obtain ⟨R, hR, hchar⟩ :=
      @scatterFile_seq (keys.map L) F kvs (m + 1) 0
        (List.replicate (m + 1) none)
        (fun j _ hj2 => by
          refine ⟨natStr j, ?_⟩
          rw [statValue, hstat1 j (by omega)]
          exact splitPipe_descriptorValue hF j)
        (by omega) (by simp)
    rw [Nat.zero_add] at hchar
    have hRmap : R = kvs.map some := by
      apply List.ext_getElem?
      intro q
      rw [hchar q, List.getElem?_map]
      by_cases hq : q < m + 1
      · rw [if_pos (by omega)]
      · rw [if_neg (by omega), List.getElem?_replicate, if_neg (by omega)]
        have hkq : kvs[q]? = none := by
          rw [List.getElem?_eq_none_iff]
          omega
        rw [hkq]
        rfl
    rw [batch_get, batch_get_core, batch_get_run]
    simp only [hrun1, hm]
    simp only [readFiles, hload, hR, hRmap]

/-! ## Lemmas: inversion and per-call facts for the coordinators -/

theorem batch_put_ok_true {idx : Index} {fid : Nat}
    {writer : String → List Payload → Except String (List Nat)}
    {keys : List Key} {kvs : List Payload} {idx2 : Index}
    (h : batch_put idx fid writer keys kvs = Except.ok (true, idx2)) :
    idx2 = writeBatchPuts idx (mkFilename fid) keys 0 := by
  rw [batch_put] at h
  by_cases hlen : keys.length ≠ kvs.length
  · rw [if_pos hlen] at h
    exact (Except.noConfusion h)
  · rw [if_neg hlen] at h
    rcases hw : writer (mkFilename fid) kvs with e | meta
    · simp only [hw] at h
      injection h with h
      injection h with h1 h2
      cases h1
    · simp only [hw] at h
      injection h with h
      injection h with h1 h2
      exact h2.symm

theorem batch_get_core_length {L : Key → Status}
    {reader : String → List Int → Except String (List Payload)}
    {keys : List Key} {r : List (Option Payload)}
    (h : batch_get_core L reader keys = Except.ok r) : r.length = keys.length := by
  rw [batch_get_core, batch_get_run] at h
  rcases hc : collect (keys.map L) 0 [] [] with e | p
  · simp only [hc] at h
    exact (Except.noConfusion h)
  · simp only [hc] at h
    rw [readFiles_fst_length _ _ _ _ _ _ h, List.length_replicate]

theorem batch_get_core_unresolved {L : Key → Status}
    {reader : String → List Int → Except String (List Payload)}
    {keys : List Key} {i : Nat} {r : List (Option Payload)}
    (hi : i < keys.length) (hres : resolvedAt (keys.map L) i = false)
    (h : batch_get_core L reader keys = Except.ok r) : r[i]? = some none := by
  rw [batch_get_core, batch_get_run] at h
  rcases hc : collect (keys.map L) 0 [] [] with e | p
  · simp only [hc] at h
    exact (Except.noConfusion h)
  · simp only [hc] at h
    have hnotmem : ((i : Nat) : Int) ∉ p.2 := by
      intro hmem
      rcases collect_ri_mem (keys.map L) 0 [] p.1 [] p.2 (by rw [hc]) _ hmem with
        h1 | h1 | ⟨j, hj1, hj2, hj3⟩
      · cases h1
      · omega
      · have hij : i = j := by omega
        rw [Nat.sub_zero] at hj2
        rw [hij, hj2] at hres
        cases hres
    rw [readFiles_fst_not_mem _ _ _ _ _ _ hnotmem h, List.getElem?_replicate,
      if_pos hi]

theorem batch_get_of_core_error {L : Key → Status}
    {reader : String → List Int → Except String (List Payload)}
    {keys : List Key} {e : String}
    (h : batch_get_core L reader keys = Except.error e) :
    batch_get L reader keys = [] := by
  rw [batch_get, h]

/-! ## The claims -/

/-- C1 (counterexample): the round-trip claim fails as stated when the same
key appears at two input positions. `batch_put(["k","k"], ["P","Q"])` writes
`k ↦ "kv_cache_0.safetensors|1"` (the later `WriteBatch.Put` wins), so
`batch_get(["k","k"])` returns `[some "Q", some "Q"]`, not the submitted
`[some "P", some "Q"]`. -/
theorem C1_counterexample :
    batch_put [] 0 (fun f ps => Except.ok (save_kv_caches (fun _ => none) f ps).2)
        ["k", "k"] ["P", "Q"] =
      Except.ok (true, writeBatchPuts [] (mkFilename 0) ["k", "k"] 0) ∧
    batch_get (ixLookup (writeBatchPuts [] (mkFilename 0) ["k", "k"] 0))
        (load_kv_caches (save_kv_caches (fun _ => none) (mkFilename 0) ["P", "Q"]).1)
        ["k", "k"] = [some "Q", some "Q"] ∧
    [some "Q", some "Q"] ≠ [some "P", some "Q"] :=
  ⟨rfl, rfl, by decide⟩

/-- C1 (amended): for every batch of pairwise-distinct keys accepted by
`batch_put` (equal lengths, successful write through the spec-modelled blob
writer), a subsequent `batch_get` over those keys returns each payload at the
position it was submitted, in input order. -/
theorem C1_roundtrip_distinct (idx : Index) (bs : BlobStore) (fid : Nat)
    (keys : List Key) (kvs : List Payload) (hnd : keys.Nodup)
    (hlen : keys.length = kvs.length) :
    ∃ idx2,
      batch_put idx fid (fun f ps => Except.ok (save_kv_caches bs f ps).2) keys kvs =
        Except.ok (true, idx2) ∧
      batch_get (ixLookup idx2)
        (load_kv_caches (save_kv_caches bs (mkFilename fid) kvs).1) keys =
        kvs.map some := by
  refine ⟨writeBatchPuts idx (mkFilename fid) keys 0, ?_, ?_⟩
  · rw [batch_put, if_neg (fun hne => hne hlen)]
  · exact batch_get_after_writeBatch idx bs fid keys kvs hnd hlen

/-- C1 (witness): the round trip at a concrete two-key batch. -/
theorem C1_witness :
    ∃ idx2,
      batch_put [] 0
          (fun f ps => Except.ok (save_kv_caches (fun _ => none) f ps).2)
          ["a", "b"] ["P1", "P2"] = Except.ok (true, idx2) ∧
      batch_get (ixLookup idx2)
        (load_kv_caches (save_kv_caches (fun _ => none) (mkFilename 0) ["P1", "P2"]).1)
        ["a", "b"] = ["P1", "P2"].map some :=
  C1_roundtrip_distinct [] (fun _ => none) 0 ["a", "b"] ["P1", "P2"] (by decide) rfl

/-- C2 (counterexample): `batch_put` does not use the writer-reported slot.
With a writer reporting slot `5` for the single payload, the index value
written is `"kv_cache_0.safetensors|0"` — the input position — not
`"kv_cache_0.safetensors|5"`. -/
theorem C2_counterexample :
    batch_put [] 0 (fun _ _ => Except.ok [5]) ["k"] ["P"] =
      Except.ok (true, [("k", "kv_cache_0.safetensors|0")]) ∧
    ("kv_cache_0.safetensors|0" : String) ≠ "kv_cache_0.safetensors|5" :=
  ⟨rfl, by decide⟩

/-- C2 (amended): for every batch accepted by `batch_put` whose writer call
succeeds, the committed index is exactly the write batch of entries
`keys[i] ↦ "<file_name>|<i>"` built from the input position `i`; the writer's
reported metadata is ignored (the coordinator assumes slot = input index). -/
theorem C2_descriptor_format (idx : Index) (fid : Nat) (keys : List Key)
    (kvs : List Payload) (writer : String → List Payload → Except String (List Nat))
    (meta : List Nat) (hlen : keys.length = kvs.length)
    (hw : writer (mkFilename fid) kvs = Except.ok meta) :
    batch_put idx fid writer keys kvs =
      Except.ok (true, writeBatchPuts idx (mkFilename fid) keys 0) ∧
    (keys.Nodup → ∀ i k, keys[i]? = some k →
      ixGet (writeBatchPuts idx (mkFilename fid) keys 0) k =
        some (descriptorValue (mkFilename fid) i)) := by
  constructor
  · rw [batch_put, if_neg (fun hne => hne hlen)]
    simp only [hw]
  · intro hnd i k hik
    rw [writeBatchPuts_get hnd idx (mkFilename fid) 0 hik, Nat.zero_add]

/-- C2 (witness): a concrete batch whose writer reports slot `7`; the entry
written for the single key still carries slot `0`. -/
theorem C2_witness :
    batch_put [] 0 (fun _ _ => Except.ok [7]) ["k"] ["P"] =
      Except.ok (true, writeBatchPuts [] (mkFilename 0) ["k"] 0) ∧
    ixGet (writeBatchPuts [] (mkFilename 0) ["k"] 0) "k" =
      some (descriptorValue (mkFilename 0) 0) := by
  obtain ⟨h1, h2⟩ :=
    C2_descriptor_format [] 0 ["k"] ["P"] (fun _ _ => Except.ok [7]) [7] rfl rfl
  exact ⟨h1, h2 (by decide) 0 "k" rfl⟩

/-- C3 (counterexample): when the blob read fails, `batch_get` does not return
one `Option` per input position: the caught exception makes it return the
empty list, whose length differs from the input length. -/
theorem C3_counterexample :
    batch_get (fun _ => Status.ok "f|0") (fun _ _ => Except.error "read failed")
        ["a"] = [] ∧
    ([] : List (Option Payload)).length ≠ (["a"] : List Key).length :=
  ⟨rfl, by decide⟩

/-- C3 (amended): when the `try` body completes, `batch_get` returns exactly
one `Option` per input position in input order — per-key lookup failures
(not-found or error statuses) and malformed descriptors yield the absent
marker at their own position; but when an exception escapes (a blob read
failure or an unparseable slot), the whole call returns the empty list
instead. -/
theorem C3_shape (L : Key → Status)
    (reader : String → List Int → Except String (List Payload)) (keys : List Key) :
    (∀ r, batch_get_core L reader keys = Except.ok r →
      r.length = keys.length ∧
      ∀ i, i < keys.length → resolvedAt (keys.map L) i = false → r[i]? = some none) ∧
    (∀ e, batch_get_core L reader keys = Except.error e →
      batch_get L reader keys = []) := by
  constructor
  · intro r hr
    exact ⟨batch_get_core_length hr,
      fun i hi hres => batch_get_core_unresolved hi hres hr⟩
  · intro e he
    exact batch_get_of_core_error he

/-- C3 (witness): a concrete two-key call — one resolved, one absent — whose
result has the input length and the absent marker at the unresolved
position. -/
theorem C3_witness :
    ([some "P", (none : Option Payload)].length = (["a", "b"] : List Key).length) ∧
    [some "P", (none : Option Payload)][1]? = some none := by
  have h :=
    ((C3_shape (fun k => if k = "a" then Status.ok "f|0" else Status.notFound)
        (fun _ _ => Except.ok ["P"]) ["a", "b"]).1 [some "P", none] rfl)
  exact ⟨h.1, h.2 1 (by decide) (by decide)⟩

/-- C4: if the blob writer fails during `batch_put`, the call reports `false`
and the index is unchanged; a `batch_get` over the batch's keys against that
unchanged index (no prior entries for them) returns all-absent, one marker per
key. -/
theorem C4_atomicity (idx : Index) (fid : Nat) (keys : List Key)
    (kvs : List Payload) (e : String)
    (reader : String → List Int → Except String (List Payload))
    (hlen : keys.length = kvs.length)
    (hfresh : ∀ k ∈ keys, ixGet idx k = none) :
    batch_put idx fid (fun _ _ => Except.error e) keys kvs =
      Except.ok (false, idx) ∧
    batch_get (ixLookup idx) reader keys = List.replicate keys.length none := by
  constructor
  · rw [batch_put, if_neg (fun hne => hne hlen)]
  · have hnf : ∀ s ∈ keys.map (ixLookup idx), s = Status.notFound := by
      intro s hs
      rcases List.mem_map.mp hs with ⟨k, hk, rfl⟩
      rw [ixLookup, hfresh k hk]
    rw [batch_get, batch_get_core, batch_get_run]
    simp only [collect_notFound hnf 0 [] [], readFiles]

/-- C4 (witness): the failed write at a concrete one-key batch over the empty
index. -/
theorem C4_witness :
    batch_put [] 0 (fun _ _ => Except.error "serialization failed") ["a"] ["P"] =
      Except.ok (false, []) ∧
    batch_get (ixLookup []) (fun _ _ => Except.ok []) ["a"] =
      List.replicate 1 none := by
  have h := C4_atomicity [] 0 ["a"] ["P"] "serialization failed"
    (fun _ _ => Except.ok []) rfl (by intro k hk; rfl)
  exact ⟨h.1, by simpa using h.2⟩

/-- C5 (counterexample): a key whose blob file cannot be materialized does not
leave the other keys unaffected. With `"a" ↦ f1|0` readable and `"b" ↦ f2|0`
unreadable, `batch_get(["a","b"])` returns `[]` — key `"a"`, which alone
resolves to `[some "P"]`, yields nothing, and no per-key CorruptEntry marker
exists. -/
theorem C5_counterexample :
    batch_get (fun k => if k = "a" then Status.ok "f1|0" else Status.ok "f2|0")
        (load_kv_caches (fun f => if f = "f1" then some ["P"] else none))
        ["a", "b"] = [] ∧
    batch_get (fun k => if k = "a" then Status.ok "f1|0" else Status.ok "f2|0")
        (load_kv_caches (fun f => if f = "f1" then some ["P"] else none))
        ["a"] = [some "P"] :=
  ⟨rfl, rfl⟩

/-- C5 (amended): a blob-read failure in `batch_get` aborts the entire call:
whenever at least one key resolves to a descriptor (the grouping map is
nonempty) and the blob reader fails, the call returns the empty list — no key
of the batch resolves, and no per-key corrupt-entry marker distinct from the
absent marker exists. -/
theorem C5_blob_failure_aborts (L : Key → Status) (keys : List Key) (e : String)
    (fo : List (String × List Int)) (ri : List Int)
    (hc : collect (keys.map L) 0 [] [] = Except.ok (fo, ri)) (hne : fo ≠ []) :
    batch_get L (fun _ _ => Except.error e) keys = [] := by
  rcases fo with _ | ⟨⟨f, os⟩, rest⟩
  · exact absurd rfl hne
  · rw [batch_get, batch_get_core, batch_get_run]
    simp only [hc, readFiles]

/-- C5 (witness): the abort at a concrete single-key call whose reader
fails. -/
theorem C5_witness :
    batch_get (fun _ => Status.ok "f|0") (fun _ _ => Except.error "io") ["a"] = [] :=
  C5_blob_failure_aborts (fun _ => Status.ok "f|0") ["a"] "io"
    [("f", [0])] [0] rfl (by decide)

/-- C7: `probe` returns `false` exactly when the lookup reports not-found,
`true` exactly when it succeeds, and raises on any other lookup status instead
of returning `false`; consequently it is `false` on a key with no index entry,
`true` after `put` or a successful `batch_put` covering the key, and `false`
again after `delete`. -/
theorem C7_probe_semantics :
    (∀ (L : Key → Status) (k : Key),
      probe L k = Except.ok false ↔ L k = Status.notFound) ∧
    (∀ (L : Key → Status) (k : Key),
      probe L k = Except.ok true ↔ ∃ v, L k = Status.ok v) ∧
    (∀ (L : Key → Status) (k : Key) (e : String), L k = Status.err e →
      probe L k = Except.error ("Error probing key: " ++ e)) ∧
    (∀ (idx : Index) (k : Key), ixGet idx k = none →
      probe (ixLookup idx) k = Except.ok false) ∧
    (∀ (idx : Index) (k : Key) (v : String),
      probe (ixLookup (put idx k v).2) k = Except.ok true) ∧
    (∀ (idx : Index) (fid : Nat)
      (writer : String → List Payload → Except String (List Nat))
      (keys : List Key) (kvs : List Payload) (k : Key) (idx2 : Index),
      k ∈ keys → batch_put idx fid writer keys kvs = Except.ok (true, idx2) →
      probe (ixLookup idx2) k = Except.ok true) ∧
    (∀ (idx : Index) (k : Key),
      probe (ixLookup (delete_key idx k).2) k = Except.ok false) := by
  refine ⟨?_, ?_, ?_, ?_, ?_, ?_, ?_⟩
  · intro L k
    rcases hs : L k with v | _ | e <;> simp [probe, hs]
  · intro L k
    rcases hs : L k with v | _ | e <;> simp [probe, hs]
  · intro L k e hs
    rw [probe, hs]
  · intro idx k h
    rw [probe, ixLookup, h]
  · intro idx k v
    have hp : (put idx k v).2 = ixPut idx k v := rfl
    rw [hp, probe, ixLookup, ixGet_ixPut_self]
  · intro idx fid writer keys kvs k idx2 hk hput
    rw [batch_put_ok_true hput]
    obtain ⟨v, hv⟩ := writeBatchPuts_covered idx (mkFilename fid) 0 hk
    rw [probe, ixLookup, hv]
  · intro idx k
    have hd : (delete_key idx k).2 = ixDelete idx k := rfl
    rw [hd, probe, ixLookup, ixGet_ixDelete_self]

/-- C7 (witness): probe transitions at a concrete key — absent on the empty
index, present after a concrete successful `batch_put`, absent after
delete. -/
theorem C7_witness :
    probe (ixLookup []) "k" = Except.ok false ∧
    probe (ixLookup (writeBatchPuts [] (mkFilename 0) ["k"] 0)) "k" =
      Except.ok true ∧
    probe (ixLookup (delete_key [("k", "v")] "k").2) "k" = Except.ok false := by
  refine ⟨C7_probe_semantics.2.2.2.1 [] "k" rfl, ?_, C7_probe_semantics.2.2.2.2.2.2 [("k", "v")] "k"⟩
  exact C7_probe_semantics.2.2.2.2.2.1 [] 0 (fun _ _ => Except.ok [0]) ["k"] ["P"]
    "k" (writeBatchPuts [] (mkFilename 0) ["k"] 0) (by decide) rfl

/-- C8 (counterexample): a collaborator-level lookup failure distinct from
not-found is not fatal to `get` — the call silently returns the absent marker
for the affected key. -/
theorem C8_counterexample :
    get (fun _ => Status.err "io error") "k" = none := rfl

/-- C8 (amended): `get` returns the stored bytes exactly on an ok lookup, and
returns the absent marker for every other status — not-found and collaborator
errors alike, so absence does not distinguish a missing key from an
unavailable index; `batch_get` likewise marks a key with an error status as
absent at its position rather than failing the call. -/
theorem C8_error_as_absent (L : Key → Status) (k : Key) :
    (∀ v, L k = Status.ok v → get L k = some v) ∧
    (L k = Status.notFound → get L k = none) ∧
    (∀ e, L k = Status.err e → get L k = none) ∧
    (∀ (keys : List Key) (reader : String → List Int → Except String (List Payload))
      (i : Nat) (e : String) (r : List (Option Payload)),
      keys[i]? = some k → L k = Status.err e →
      batch_get_core L reader keys = Except.ok r → r[i]? = some none) := by
  refine ⟨?_, ?_, ?_, ?_⟩
  · intro v hv
    rw [get, hv]
  · intro hv
    rw [get, hv]
  · intro e hv
    rw [get, hv]
  · intro keys reader i e r hik hke hcore
    have hi : i < keys.length := by
      rcases List.getElem?_eq_some.mp hik with ⟨h, _⟩
      exact h
    refine batch_get_core_unresolved hi ?_ hcore
    rw [resolvedAt, List.getElem?_map, hik]
    simp only [Option.map_some']
    rw [hke]

/-- C8 (witness): the amended behavior at a concrete erroring lookup. -/
theorem C8_witness :
    get (fun _ => Status.err "io down") "k" = none ∧
    ([(none : Option Payload)] : List (Option Payload))[0]? = some none := by
  refine ⟨(C8_error_as_absent (fun _ => Status.err "io down") "k").2.2.1 "io down" rfl, ?_⟩
  exact (C8_error_as_absent (fun _ => Status.err "io down") "k").2.2.2 ["k"]
    (fun _ _ => Except.ok []) 0 "io down" [none] rfl rfl rfl

/-- C10: when `multiget`'s lookup succeeds for a key but the stored value is
empty, the call raises `"Empty value for key: <key>"` naming that key and
aborts — no partial per-key mapping is returned for the other keys (keys
before the offending one not themselves triggering the condition). -/
theorem C10_multiget_empty_value (L : Key → Status) (pre : List Key) (k : Key)
    (post : List Key) (hpre : ∀ k2 ∈ pre, L k2 ≠ Status.ok "")
    (hk : L k = Status.ok "") :
    multiget L (pre ++ k :: post) = Except.error ("Empty value for key: " ++ k) :=
  multigetGo_empty_value pre post [] hpre hk

/-- C10 (witness): the abort at a concrete call with one healthy key before
the empty-valued one, and a third key after it. -/
theorem C10_witness :
    multiget (fun k2 => if k2 = "a" then Status.ok "x" else Status.ok "")
        ["a", "b", "c"] = Except.error "Empty value for key: b" := by
  have h := C10_multiget_empty_value
    (fun k2 => if k2 = "a" then Status.ok "x" else Status.ok "") ["a"] "b" ["c"]
    (by
      intro k2 hk2
      have : k2 = "a" := by simpa using hk2
      subst this
      simp)
    (by simp)
  simpa using h

/-! ## Lemmas: a malformed descriptor behaves exactly like an absent key -/

/-- The nonnegative (real position) entries of `result_indices`. -/
def posFilter (ri : List Int) : List Int := ri.filter (fun x => decide ((0 : Int) ≤ x))

/-- Normalize a collect result: keep the grouping map, keep only the real
positions of `result_indices`. -/
def riNorm (p : List (String × List Int) × List Int) :
    List (String × List Int) × List Int :=
  (p.1, posFilter p.2)

/-- Pointwise relation between two status lists that differ only in that ok
values without a `'|'` on the left are not-found on the right. -/
def NoPipeRel (a b : Status) : Prop :=
  a = b ∨ ∃ w, splitPipe w = none ∧ a = Status.ok w ∧ b = Status.notFound

theorem posFilter_append_nonneg (ri : List Int) (i : Nat) :
    posFilter (ri ++ [(i : Int)]) = posFilter ri ++ [(i : Int)] := by
  simp [posFilter, List.filter_append]

theorem posFilter_append_neg (ri : List Int) :
    posFilter (ri ++ [(-1 : Int)]) = posFilter ri := by
  rw [posFilter, List.filter_append, posFilter]
  simp

theorem collect_congr_nopipe : ∀ (stats1 stats2 : List Status) (i : Nat)
    (fo : List (String × List Int)) (ri1 ri2 : List Int),
    List.Forall₂ NoPipeRel stats1 stats2 →
    posFilter ri1 = posFilter ri2 →
    (collect stats1 i fo ri1).map riNorm = (collect stats2 i fo ri2).map riNorm := by
  intro stats1
  induction stats1 with
  | nil =>
    intro stats2 i fo ri1 ri2 hrel hf
    cases hrel
    simp only [collect, Except.map, riNorm, hf]
  | cons s1 rest1 ih =>
    intro stats2 i fo ri1 ri2 hrel hf
    cases hrel with
    | cons hr hrest =>
      rename_i s2 rest2
      rcases hr with rfl | ⟨w, hw, ha, hb⟩
      · rcases s1 with v | _ | e
        · rcases hsp : splitPipe v with _ | p
          · simp only [collect, hsp]
            exact ih rest2 (i + 1) fo ri1 ri2 hrest hf
          · rcases hst : stoi p.2 with _ | o
            · simp only [collect, hsp, hst, Except.map]
            · simp only [collect, hsp, hst]
              refine ih rest2 (i + 1) (foInsert fo p.1 o) _ _ hrest ?_
              rw [posFilter_append_nonneg, posFilter_append_nonneg, hf]
        · simp only [collect]
          refine ih rest2 (i + 1) fo _ _ hrest ?_
          rw [posFilter_append_neg, posFilter_append_neg, hf]
        · simp only [collect]
          refine ih rest2 (i + 1) fo _ _ hrest ?_
          rw [posFilter_append_neg, posFilter_append_neg, hf]
      · subst ha
        subst hb
        simp only [collect, hw]
        refine ih rest2 (i + 1) fo _ _ hrest ?_
        rw [posFilter_append_neg, hf]

theorem scatterFile_posFilter : ∀ (ri : List Int) (stats : List Status)
    (F : String) (loaded : List Payload) (li : Nat)
    (results : List (Option Payload)),
    scatterFile stats ri F loaded li results =
      scatterFile stats (posFilter ri) F loaded li results := by
  intro ri
  induction ri with
  | nil => intro stats F loaded li results; rw [posFilter]; rfl
  | cons idx rest ih =>
    intro stats F loaded li results
    by_cases h0 : (0 : Int) ≤ idx
    · have hpf : posFilter (idx :: rest) = idx :: posFilter rest := by
        rw [posFilter, List.filter_cons, if_pos (by simpa using h0)]
        rfl
      rw [hpf, scatterFile, scatterFile, if_pos h0, if_pos h0]
      rcases hsp : splitPipe (statValue stats idx.toNat) with _ | p
      · simp only [hsp]
        exact ih stats F loaded li results
      · simp only [hsp]
        by_cases hfe : p.1 = F
        · rw [if_pos hfe, if_pos hfe]
          rcases hld : loaded[li]? with _ | pay
          · simp only [hld]
          · simp only [hld]
            exact ih stats F loaded (li + 1) (results.set idx.toNat (some pay))
        · rw [if_neg hfe, if_neg hfe]
          exact ih stats F loaded li results
    · have hpf : posFilter (idx :: rest) = posFilter rest := by
        rw [posFilter, List.filter_cons, if_neg (by simpa using h0)]
        rfl
      rw [hpf, scatterFile, if_neg h0]
      exact ih stats F loaded li results

theorem scatterFile_stats_congr : ∀ (ri : List Int) (stats1 stats2 : List Status)
    (F : String) (loaded : List Payload) (li : Nat)
    (results : List (Option Payload)),
    (∀ x ∈ ri, (0 : Int) ≤ x → statValue stats1 x.toNat = statValue stats2 x.toNat) →
    scatterFile stats1 ri F loaded li results =
      scatterFile stats2 ri F loaded li results := by
  intro ri
  induction ri with
  | nil => intro stats1 stats2 F loaded li results _; rfl
  | cons idx rest ih =>
    intro stats1 stats2 F loaded li results hcong
    have hrest : ∀ x ∈ rest, (0 : Int) ≤ x →
        statValue stats1 x.toNat = statValue stats2 x.toNat :=
      fun x hx => hcong x (List.mem_cons_of_mem _ hx)
    rw [scatterFile, scatterFile]
    by_cases h0 : (0 : Int) ≤ idx
    · rw [if_pos h0, if_pos h0,
        hcong idx (List.mem_cons_self _ _) h0]
      rcases hsp : splitPipe (statValue stats2 idx.toNat) with _ | p
      · simp only [hsp]
        exact ih stats1 stats2 F loaded li results hrest
      · simp only [hsp]
        by_cases hfe : p.1 = F
        · rw [if_pos hfe, if_pos hfe]
          rcases hld : loaded[li]? with _ | pay
          · simp only [hld]
          · simp only [hld]
            exact ih stats1 stats2 F loaded (li + 1)
              (results.set idx.toNat (some pay)) hrest
        · rw [if_neg hfe, if_neg hfe]
          exact ih stats1 stats2 F loaded li results hrest
    · rw [if_neg h0, if_neg h0]
      exact ih stats1 stats2 F loaded li results hrest

theorem readFiles_congr : ∀ (fo : List (String × List Int))
    (reader : String → List Int → Except String (List Payload))
    (stats1 stats2 : List Status) (ri1 ri2 : List Int)
    (results : List (Option Payload)),
    posFilter ri1 = posFilter ri2 →
    (∀ x ∈ ri1, (0 : Int) ≤ x → statValue stats1 x.toNat = statValue stats2 x.toNat) →
    readFiles reader stats1 ri1 fo results = readFiles reader stats2 ri2 fo results := by
  intro fo
  induction fo with
  | nil => intro reader stats1 stats2 ri1 ri2 results _ _; rfl
  | cons e rest ih =>
    obtain ⟨f, os⟩ := e
    intro reader stats1 stats2 ri1 ri2 results hpf hcong
    have hsc : ∀ (loaded : List Payload) (results2 : List (Option Payload)),
        scatterFile stats1 ri1 f loaded 0 results2 =
          scatterFile stats2 ri2 f loaded 0 results2 := by
      intro loaded results2
      rw [scatterFile_posFilter, scatterFile_stats_congr (posFilter ri1) stats1 stats2
        f loaded 0 results2
        (fun x hx h0 => hcong x (List.mem_filter.mp hx).1 h0), hpf,
        ← scatterFile_posFilter]
    rw [readFiles, readFiles]
    rcases hrd : reader f os with e2 | loaded
    · rfl
    · dsimp only
      rw [hsc loaded results]
      rcases hsc2 : scatterFile stats2 ri2 f loaded 0 results with e2 | results2
      · simp only [hsc2]
      · simp only [hsc2]
        rw [ih reader stats1 stats2 ri1 ri2 results2 hpf hcong]

/-- C9: a key whose stored index value has no `'|'` delimiter is handled
exactly like a key absent from the index: `batch_get` behaves identically to a
run where that key's lookup reports not-found (so no blob read is issued for
it and no error is raised for it, and every other key is unaffected), and on a
completed call the key's own output position holds the absent marker. -/
theorem C9_malformed_descriptor (L : Key → Status)
    (reader : String → List Int → Except String (List Payload))
    (keys : List Key) (k : Key) (v : String)
    (hk : L k = Status.ok v) (hnp : splitPipe v = none) :
    batch_get L reader keys =
      batch_get (fun k2 => if k2 = k then Status.notFound else L k2) reader keys ∧
    (∀ (i : Nat) (r : List (Option Payload)), keys[i]? = some k →
      batch_get_core L reader keys = Except.ok r → r[i]? = some none) := by
  set L2 := fun k2 => if k2 = k then Status.notFound else L k2 with hL2
  constructor
  · have hrel : List.Forall₂ NoPipeRel (keys.map L) (keys.map L2) := by
      induction keys with
      | nil => exact List.Forall₂.nil
      | cons k2 rest ihk =>
        refine List.Forall₂.cons ?_ ihk
        by_cases he : k2 = k
        · subst he
          exact Or.inr ⟨v, hnp, by rw [hk], by simp [hL2]⟩
        · exact Or.inl (by simp [hL2, he])
    have hcc := collect_congr_nopipe (keys.map L) (keys.map L2) 0 [] [] [] hrel rfl
    have hstat : ∀ (ri1 : List Int) (fo : List (String × List Int)),
        collect (keys.map L) 0 [] [] = Except.ok (fo, ri1) →
        ∀ x ∈ ri1, (0 : Int) ≤ x →
          statValue (keys.map L) x.toNat = statValue (keys.map L2) x.toNat := by
      intro ri1 fo hc x hx h0
      rcases collect_ri_mem (keys.map L) 0 [] fo [] ri1 hc x hx with
        h1 | h1 | ⟨j, hj1, hj2, _⟩
      · cases h1
      · omega
      · subst hj1
        rw [Nat.sub_zero] at hj2
        have htn : ((j : Int)).toNat = j := rfl
        rw [htn]
        rw [resolvedAt] at hj2
        rcases hgj : (keys.map L)[j]? with _ | s
        · rw [hgj] at hj2
          exact Bool.noConfusion hj2
        · rw [hgj] at hj2
          rcases s with w2 | _ | e2
          · rcases hsp2 : splitPipe w2 with _ | p2
            · simp only [hsp2] at hj2
              exact Bool.noConfusion hj2
            · have hmap : keys[j]?.map L = some (Status.ok w2) := by
                rw [← List.getElem?_map]
                exact hgj
              rcases hkj : keys[j]? with _ | k3
              · rw [hkj] at hmap
                exact Option.noConfusion hmap
              · rw [hkj] at hmap
                simp only [Option.map_some'] at hmap
                injection hmap with hmap
                have hk3 : k3 ≠ k := by
                  intro he
                  rw [he, hk] at hmap
                  injection hmap with hv
                  rw [← hv] at hsp2
                  rw [hnp] at hsp2
                  exact Option.noConfusion hsp2
                have hL2j : (keys.map L2)[j]? = some (Status.ok w2) := by
                  rw [List.getElem?_map, hkj]
                  simp only [Option.map_some']
                  rw [hL2]
                  simp only [if_neg hk3]
                  rw [hmap]
                rw [statValue, statValue, hgj, hL2j]
          · exact Bool.noConfusion hj2
          · exact Bool.noConfusion hj2
    rcases hc1 : collect (keys.map L) 0 [] [] with e | p1
    · rcases hc2 : collect (keys.map L2) 0 [] [] with e2 | p2
      · rw [batch_get, batch_get, batch_get_core, batch_get_core,
          batch_get_run, batch_get_run]
        simp only [hc1, hc2]
      · rw [hc1, hc2] at hcc
        simp only [Except.map] at hcc
        exact (Except.noConfusion hcc)
    · obtain ⟨fo1, ri1⟩ := p1
      rcases hc2 : collect (keys.map L2) 0 [] [] with e2 | p2
      · rw [hc1, hc2] at hcc
        simp only [Except.map] at hcc
        exact (Except.noConfusion hcc)
      · obtain ⟨fo2, ri2⟩ := p2
        rw [hc1, hc2] at hcc
        simp only [Except.map, riNorm] at hcc
        injection hcc with hcc
        have hfo : fo1 = fo2 := congrArg Prod.fst hcc
        have hri : posFilter ri1 = posFilter ri2 := congrArg Prod.snd hcc
        rw [batch_get, batch_get, batch_get_core, batch_get_core,
          batch_get_run, batch_get_run]
        simp only [hc1, hc2]
        rw [readFiles_congr fo1 reader (keys.map L) (keys.map L2) ri1 ri2
          (List.replicate keys.length none) hri (hstat ri1 fo1 hc1), hfo]
  · intro i r hik hcore
    have hi : i < keys.length := (List.getElem?_eq_some.mp hik).1
    refine batch_get_core_unresolved hi ?_ hcore
    rw [resolvedAt, List.getElem?_map, hik]
    simp only [Option.map_some', hk, hnp]

/-- C9 (witness): a concrete call with a pipe-free stored value at position 0
and a healthy key at position 1 — the completed call leaves position 0
absent. -/
theorem C9_witness : ([none, some "P"] : List (Option Payload))[0]? = some none :=
  (C9_malformed_descriptor
    (fun k2 => if k2 = "m" then Status.ok "nopipe"
      else if k2 = "a" then Status.ok "f|0" else Status.notFound)
    (fun _ _ => Except.ok ["P"]) ["m", "a"] "m" "nopipe" rfl rfl).2
    0 [none, some "P"] rfl rfl

/-- C6: in every `batch_get` call, the blob-reader call log never names the
same file twice and names only files referenced by resolved descriptors, so
the number of blob-reader calls never exceeds the number of distinct files
touched; and when the call completes, the log names exactly the distinct
files of the resolved descriptors — one call per distinct file, regardless of
how many keys resolve to each. -/
theorem C6_one_call_per_file (L : Key → Status)
    (reader : String → List Int → Except String (List Payload)) (keys : List Key) :
    (batch_getCalls L reader keys).Nodup ∧
    (∀ f ∈ batch_getCalls L reader keys, f ∈ resolvedFiles L keys) ∧
    (batch_getCalls L reader keys).length ≤ (resolvedFiles L keys).dedup.length ∧
    (∀ r, batch_get_core L reader keys = Except.ok r →
      ∀ f, f ∈ batch_getCalls L reader keys ↔ f ∈ resolvedFiles L keys) := by
  rcases hc : collect (keys.map L) 0 [] [] with e | p
  · have hcalls : batch_getCalls L reader keys = [] := by
      rw [batch_getCalls, batch_get_run]
      simp only [hc]
    refine ⟨by rw [hcalls]; exact List.nodup_nil, ?_, ?_, ?_⟩
    · rw [hcalls]
      intro f hf
      cases hf
    · rw [hcalls]
      simp
    · intro r hr
      rw [batch_get_core, batch_get_run] at hr
      simp only [hc] at hr
      exact (Except.noConfusion hr)
  · obtain ⟨fo, ri⟩ := p
    obtain ⟨hmem, hsort⟩ := collect_fo_spec (keys.map L) 0 [] fo [] ri hc
    have hsorted : FoSorted fo := hsort (by rw [FoSorted]; exact List.Pairwise.nil)
    have hnodupfo : (fo.map Prod.fst).Nodup := hsorted.fst_nodup
    have hmem2 : ∀ g, g ∈ fo.map Prod.fst ↔ g ∈ resolvedFiles L keys := by
      intro g
      rw [hmem g, resolvedFiles]
      simp
    have hcalls_def : batch_getCalls L reader keys =
        (readFiles reader (keys.map L) ri fo (List.replicate keys.length none)).2 := by
      rw [batch_getCalls, batch_get_run]
      simp only [hc]
    have hsub : (batch_getCalls L reader keys).Sublist (fo.map Prod.fst) := by
      rw [hcalls_def]
      exact readFiles_snd_sublist fo reader _ ri _
    have hnd : (batch_getCalls L reader keys).Nodup :=
      List.Nodup.sublist hsub hnodupfo
    have hmemcalls : ∀ f ∈ batch_getCalls L reader keys, f ∈ resolvedFiles L keys :=
      fun f hf => (hmem2 f).mp (hsub.subset hf)
    refine ⟨hnd, hmemcalls, ?_, ?_⟩
    · have hsubset : batch_getCalls L reader keys ⊆ (resolvedFiles L keys).dedup := by
        intro f hf
        rw [List.mem_dedup]
        exact hmemcalls f hf
      exact (hnd.subperm hsubset).length_le
    · intro r hr f
      have hr2 : (readFiles reader (keys.map L) ri fo
          (List.replicate keys.length none)).1 = Except.ok r := by
        rw [batch_get_core, batch_get_run] at hr
        simp only [hc] at hr
        exact hr
      rw [hcalls_def, readFiles_snd_of_ok fo reader _ ri _ r hr2]
      exact hmem2 f

/-- C6 (witness): a concrete call spanning two distinct files — two keys in
`f1`, one in `f2`, one absent — where the completed call's log names `f1`
exactly when `f1` is a resolved file. -/
theorem C6_witness :
    "f1" ∈ batch_getCalls
        (fun k => if k = "a" then Status.ok "f1|0"
          else if k = "b" then Status.ok "f2|0"
          else if k = "c" then Status.ok "f1|1" else Status.notFound)
        (load_kv_caches
          (fun f => if f = "f1" then some ["P", "Q"]
            else if f = "f2" then some ["R"] else none))
        ["a", "b", "c", "z"] ↔
      "f1" ∈ resolvedFiles
        (fun k => if k = "a" then Status.ok "f1|0"
          else if k = "b" then Status.ok "f2|0"
          else if k = "c" then Status.ok "f1|1" else Status.notFound)
        ["a", "b", "c", "z"] :=
  (C6_one_call_per_file
    (fun k => if k = "a" then Status.ok "f1|0"
      else if k = "b" then Status.ok "f2|0"
      else if k = "c" then Status.ok "f1|1" else Status.notFound)
    (load_kv_caches
      (fun f => if f = "f1" then some ["P", "Q"]
        else if f = "f2" then some ["R"] else none))
    ["a", "b", "c", "z"]).2.2.2
    [some "P", some "R", some "Q", none] rfl "f1"

end RocksBind
